import Mathlib

/-!
Shallow embedding of the CDC historical-warehouse platform.

Loader side (src/src/warehouse/scd2_loader.py): the dimension table
`dim_orders_history` is a list of version rows plus the BIGSERIAL
surrogate-key counter; the SCD2 transition functions
`_process_insert_change` / `_process_update_change` /
`_process_delete_change` / `_process_change_record` /
`_process_batch_file` / `load_change_logs` are translated one-to-one.

Extractor side (src/src/cdc/log_extractor.py): `_detect_changes`,
the watermark step of `extract_changes`, and `_save_watermark`.

Timestamps are modelled as `Int` (the code parses ISO strings into
comparable datetimes); money columns as `Int` (compared via float() in
the code, an order-preserving injection for the stored DECIMAL values);
the md5 content identity of a batch is modelled by the hashed content
itself, the sorted list of change ids.
-/

namespace CdcWarehouse

/-- A change record as read from a CDC batch artifact (the dict handed to
the loader's transition functions). -/
structure Change where
  id : Nat
  customer_id : Nat
  product_id : Nat
  quantity : Nat
  unit_price : Int
  total_amount : Int
  order_status : String
  order_date : String
  operation_type : String
  cdc_timestamp : Int
deriving Repr, DecidableEq

/-- One version row of `dim_orders_history`. -/
structure Row where
  surrogate_key : Nat
  order_key : Nat
  customer_id : Nat
  product_id : Nat
  quantity : Nat
  unit_price : Int
  total_amount : Int
  order_status : String
  order_date : String
  valid_from : Int
  valid_to : Option Int
  is_current : Bool
  cdc_operation : String
  cdc_timestamp : Int
  batch_id : List Nat
deriving Repr, DecidableEq

/-- The warehouse state: the rows of `dim_orders_history` and the next
value of the BIGSERIAL surrogate-key sequence. -/
structure WState where
  rows : List Row
  nextKey : Nat
deriving Repr, DecidableEq

/-- Translation of `_get_current_record`: the row for this order key with
`is_current = TRUE`. -/
def getCurrentRecord (order_key : Nat) (s : WState) : Option Row :=
  s.rows.find? (fun r => r.order_key == order_key && r.is_current)

/-- The row built by the INSERT statement of `_insert_new_record` (also
inlined in `_process_update_change`): `valid_from` and `cdc_timestamp`
both take the change's `cdc_timestamp`; `valid_to` defaults to NULL and
`is_current` to TRUE. -/
def mkNewRow (change : Change) (batch_id : List Nat) (sk : Nat) : Row :=
  { surrogate_key := sk
    order_key := change.id
    customer_id := change.customer_id
    product_id := change.product_id
    quantity := change.quantity
    unit_price := change.unit_price
    total_amount := change.total_amount
    order_status := change.order_status
    order_date := change.order_date
    valid_from := change.cdc_timestamp
    valid_to := none
    is_current := true
    cdc_operation := change.operation_type
    cdc_timestamp := change.cdc_timestamp
    batch_id := batch_id }

/-- Translation of `_insert_new_record`: append the new version row and
advance the surrogate-key sequence. -/
def insertNewRecord (change : Change) (batch_id : List Nat) (s : WState) : WState :=
  { rows := s.rows ++ [mkNewRow change batch_id s.nextKey], nextKey := s.nextKey + 1 }

/-- Closing a row: the SET clause of the expire UPDATE statement
(valid_to fixed, is_current cleared). -/
def closeRow (r : Row) (ts : Int) : Row :=
  { r with valid_to := some ts, is_current := false }

/-- The expire UPDATE statement used by `_process_update_change` and
`_process_delete_change`: close every current row of the order key. -/
def expireCurrent (order_key : Nat) (ts : Int) (s : WState) : WState :=
  { s with rows := s.rows.map fun r =>
      if r.order_key == order_key && r.is_current then closeRow r ts else r }

/-- Translation of the `has_changes` comparison in
`_process_update_change`. The source compares customer_id, product_id,
quantity, unit_price, order_status and order_date; `total_amount` is not
part of the comparison. -/
def hasChanges (cur : Row) (change : Change) : Bool :=
  cur.customer_id != change.customer_id ||
  cur.product_id != change.product_id ||
  cur.quantity != change.quantity ||
  cur.unit_price != change.unit_price ||
  cur.order_status != change.order_status ||
  cur.order_date != change.order_date

mutual

/-- Translation of `_process_insert_change`. The two functions call each
other (INSERT on an existing key is re-handled as UPDATE, UPDATE on a
missing key as INSERT), so the recursion is given explicit fuel; fuel
exhaustion returns `none`. -/
def processInsertChange : Nat → Change → List Nat → WState → Option WState
  | 0, _, _, _ => none
  | fuel + 1, change, batch_id, s =>
    match getCurrentRecord change.id s with
    | some cur =>
      if cur.cdc_timestamp == change.cdc_timestamp && cur.cdc_operation == "INSERT" then
        some s
      else
        processUpdateChange fuel change batch_id s
    | none => some (insertNewRecord change batch_id s)

/-- Translation of `_process_update_change` (success path; the
transactional failure analysis is modelled separately below). -/
def processUpdateChange : Nat → Change → List Nat → WState → Option WState
  | 0, _, _, _ => none
  | fuel + 1, change, batch_id, s =>
    match getCurrentRecord change.id s with
    | none => processInsertChange fuel change batch_id s
    | some cur =>
      if hasChanges cur change then
        some (insertNewRecord change batch_id (expireCurrent change.id change.cdc_timestamp s))
      else
        some s

end

/-- Translation of `_process_delete_change`: expire the current row; a
missing current row is still treated as success. -/
def processDeleteChange (change : Change) (s : WState) : WState :=
  expireCurrent change.id change.cdc_timestamp s

/-- Translation of `_process_change_record`: dispatch on the operation
string; an unknown operation fails. Fuel 2 suffices for the mutual
redirection (proved below). -/
def processChangeRecord (change : Change) (batch_id : List Nat) (s : WState) : Option WState :=
  if change.operation_type == "INSERT" then processInsertChange 2 change batch_id s
  else if change.operation_type == "UPDATE" then processUpdateChange 2 change batch_id s
  else if change.operation_type == "DELETE" then some (processDeleteChange change s)
  else none

/-- Stable insertion step for the coalescing sort (Python's `list.sort`
is stable; a stable ascending sort is unique, so this insertion sort
produces the same list). -/
def insertByTimestamp (c : Change) : List Change → List Change
  | [] => [c]
  | b :: bs =>
    if c.cdc_timestamp ≤ b.cdc_timestamp then c :: b :: bs
    else b :: insertByTimestamp c bs

/-- The `order_changes.sort(key=lambda x: x.cdc_timestamp)` step of
`_process_batch_file`. -/
def sortByTimestamp (l : List Change) : List Change :=
  l.foldr insertByTimestamp []

/-- The `order_changes[-1]` selection of `_process_batch_file`: the
effective change of one key's partition. -/
def latestChange (order_changes : List Change) : Option Change :=
  (sortByTimestamp order_changes).getLast?

/-- The keys of `changes_by_order` in Python dict insertion order (first
occurrence of each id in the batch). -/
def orderKeys (changes : List Change) : List Nat :=
  changes.foldl (fun ks c => if ks.contains c.id then ks else ks ++ [c.id]) []

/-- The partition `changes_by_order[k]`, in batch order. -/
def changesForKey (changes : List Change) (k : Nat) : List Change :=
  changes.filter (fun c => c.id == k)

/-- The per-key loop body of `_process_batch_file`: apply only the
effective (latest) change of the key's partition; a missing effective
change or a failed record aborts the batch. -/
def processOrderGroup (changes : List Change) (batch_id : List Nat) (s : WState) (k : Nat) :
    Option WState :=
  match latestChange (changesForKey changes k) with
  | some c => processChangeRecord c batch_id s
  | none => none

/-- The per-batch loop of `_process_batch_file`: one effective change
per key, keys in dict insertion order. -/
def processBatchChanges (changes : List Change) (batch_id : List Nat) (s : WState) :
    Option WState :=
  (orderKeys changes).foldlM (processOrderGroup changes batch_id) s

/-- Observation: the rows of the table with `is_current = TRUE` for one
natural key. -/
def currentRowsFor (k : Nat) (s : WState) : List Row :=
  s.rows.filter (fun r => r.order_key == k && r.is_current)

/-- The single-current invariant of the dimension table: every natural
key has at most one current row. -/
def atMostOneCurrent (s : WState) : Prop :=
  ∀ k, (currentRowsFor k s).length ≤ 1

/-- Row `r` is the same stored version as `r0`: either untouched, or
merely closed (valid_to set, is_current cleared) — the only mutation the
loader ever performs on an existing row. -/
def versionOf (r0 r : Row) : Prop :=
  r = r0 ∨ ∃ ts, r = closeRow r0 ts

/-- The coalescing contract: for every key of the batch, the selected
effective change is a member of the key's partition, carries the
partition's maximal capture timestamp, and every record after it in
detection order has a strictly smaller capture timestamp. -/
def effectiveSelection (changes : List Change) : Prop :=
  ∀ k ∈ orderKeys changes, ∃ c l₁ l₂,
    latestChange (changesForKey changes k) = some c ∧ c.id = k ∧
    changesForKey changes k = l₁ ++ c :: l₂ ∧
    (∀ b ∈ changesForKey changes k, b.cdc_timestamp ≤ c.cdc_timestamp) ∧
    (∀ b ∈ l₂, b.cdc_timestamp < c.cdc_timestamp)

/-- Provenance of the rows after a batch: every row either descends from
a pre-batch row (at most closed), or is the new version materialized
from some key's effective change — never from a discarded earlier record
of a partition. -/
def rowsProvenance (changes : List Change) (batch_id : List Nat) (s s1 : WState) : Prop :=
  ∀ r ∈ s1.rows,
    (∃ r0 ∈ s.rows, versionOf r0 r) ∨
    (∃ k ∈ orderKeys changes, ∃ c sk,
      latestChange (changesForKey changes k) = some c ∧
      versionOf (mkNewRow c batch_id sk) r)

/-- Insertion step for `sorted(...)` over the change ids. -/
def insertNat (n : Nat) : List Nat → List Nat
  | [] => [n]
  | m :: ms => if n ≤ m then n :: m :: ms else m :: insertNat n ms

/-- Python's `sorted` over a list of ids. -/
def sortedIds (ids : List Nat) : List Nat :=
  ids.foldr insertNat []

/-- Translation of `_generate_batch_id`: the source md5-hashes the JSON
encoding of the sorted id list; content identity is modelled by the
hashed content itself, the sorted id list. -/
def batchIdOf (changes : List Change) : List Nat :=
  sortedIds (changes.map (fun c => c.id))

/-- The `.processed_files` ledger: one `filename|batch_id` line per fully
applied artifact, in append order. -/
abbrev Ledger := List (String × List Nat)

/-- Translation of `_mark_file_processed`: append one ledger line. -/
def markFileProcessed (ledger : Ledger) (filename : String) (batch_id : List Nat) : Ledger :=
  ledger ++ [(filename, batch_id)]

/-- The duplicate check of `_process_batch_file`: some ledger line has
this filename and this batch id. -/
def alreadyProcessed (ledger : Ledger) (filename : String) (batch_id : List Nat) : Bool :=
  ledger.any (fun e => e.1 == filename && e.2 == batch_id)

/-- Result of one `_process_batch_file` call: warehouse state, ledger,
and the returned success flag. -/
structure BatchOutcome where
  state : WState
  ledger : Ledger
  ok : Bool
deriving Repr, DecidableEq

/-- Translation of `_process_batch_file`: empty artifacts succeed
untouched; an artifact whose (name, batch id) pair is already in the
ledger is skipped; otherwise the coalesced changes are applied and the
ledger line appended. A failed application leaves the state as it was
(the batch transaction is rolled back and the ledger not updated). -/
def processBatchFile (ledger : Ledger) (filename : String) (changes : List Change)
    (s : WState) : BatchOutcome :=
  if changes.isEmpty then ⟨s, ledger, true⟩
  else
    let batch_id := batchIdOf changes
    if alreadyProcessed ledger filename batch_id then ⟨s, ledger, true⟩
    else
      match processBatchChanges changes batch_id s with
      | some s1 => ⟨s1, markFileProcessed ledger filename batch_id, true⟩
      | none => ⟨s, ledger, false⟩

/-- The `processed_filenames` set of `load_change_logs`: the name part of
every ledger line. -/
def processedFilenames (ledger : Ledger) : List String :=
  ledger.map (fun e => e.1)

/-- The `unprocessed_files` selection of `load_change_logs`: keep a file
whenever its NAME is absent from the ledger; the recorded batch id plays
no part here. `files` is the name-sorted directory listing, each with
its current content. -/
def unprocessedFiles (ledger : Ledger) (files : List (String × List Change)) :
    List (String × List Change) :=
  files.filter (fun f => !(processedFilenames ledger).contains f.1)

/-- Translation of the `load_change_logs` batch loop: process each
selected file in order, threading state and ledger. -/
def loadChangeLogs (ledger : Ledger) (files : List (String × List Change)) (s : WState) :
    WState × Ledger :=
  (unprocessedFiles ledger files).foldl
    (fun acc f =>
      let out := processBatchFile acc.2 f.1 f.2 acc.1
      (out.state, out.ledger))
    (s, ledger)

/-! Transactional model of the UPDATE transition. The expire UPDATE and
the new-row INSERT of `_process_update_change` are issued inside one
`with self.warehouse_connection:` block: a database transaction that
commits both statements on normal exit and rolls both back if anything
inside raises. `runTx` gives that environment semantics: on failure the
observable state is the entry state. -/

/-- A database transaction over the warehouse state: all statements
apply, or on a failure inside the block none do. -/
def runTx (s : WState) (ops : List (WState → WState)) (failInside : Bool) : WState :=
  if failInside then s else ops.foldl (fun st f => f st) s

/-- The two statements of the UPDATE transition, in program order. -/
def updateTxOps (change : Change) (batch_id : List Nat) : List (WState → WState) :=
  [expireCurrent change.id change.cdc_timestamp, insertNewRecord change batch_id]

/-- The CURRENT-state branch of `_process_update_change` with its
transaction made explicit: second component is the returned success
flag (the except-branch returns False after the rollback). -/
def processUpdateChangeTx (change : Change) (batch_id : List Nat) (s : WState)
    (failInside : Bool) : WState × Bool :=
  match getCurrentRecord change.id s with
  | none => (s, false)
  | some cur =>
    if hasChanges cur change then
      (runTx s (updateTxOps change batch_id) failInside, !failInside)
    else
      (s, true)

/-! Extractor side: src/src/cdc/log_extractor.py. -/

/-- A row of the operational `orders` table as selected by the snapshot
query. -/
structure SrcRow where
  id : Nat
  customer_id : Nat
  product_id : Nat
  quantity : Nat
  unit_price : Int
  total_amount : Int
  order_status : String
  order_date : String
  last_updated : Int
  created_at : Int
deriving Repr, DecidableEq

/-- A detected change record as built by `_detect_changes`: the source
row plus the assigned operation type and wall-clock capture metadata. -/
structure DetChange where
  row : SrcRow
  operation_type : String
  cdc_timestamp : Int
  extracted_at : Int
deriving Repr, DecidableEq

/-- The ORDER BY (last_updated, id) comparison of the snapshot query. -/
def rowEarlier (a b : SrcRow) : Bool :=
  a.last_updated < b.last_updated ||
  (a.last_updated == b.last_updated && a.id ≤ b.id)

/-- Stable insertion step for the snapshot ordering. -/
def insertRow (a : SrcRow) : List SrcRow → List SrcRow
  | [] => [a]
  | b :: bs => if rowEarlier b a then b :: insertRow a bs else a :: b :: bs

/-- Sort of the snapshot by (last_updated, id). -/
def sortRows (l : List SrcRow) : List SrcRow :=
  l.foldr insertRow []

/-- The snapshot query of `_detect_changes`: rows with
`last_updated > since OR created_at > since`, ordered by
(last_updated, id). -/
def snapshotQuery (orders : List SrcRow) (since : Int) : List SrcRow :=
  sortRows (orders.filter fun r => since < r.last_updated || since < r.created_at)

/-- The classification loop of `_detect_changes`: INSERT when the row
was created after the watermark, else UPDATE; capture metadata is the
detector's wall clock `now`. -/
def classifyRow (since now : Int) (r : SrcRow) : DetChange :=
  { row := r
    operation_type := if since < r.created_at then "INSERT" else "UPDATE"
    cdc_timestamp := now
    extracted_at := now }

/-- Translation of `_detect_changes`. The psycopg2 query may fail
(`connOk = false`); the except-branch of the source catches that error,
rolls back and RETURNS the empty list, so the function's result is a
normal `Except.ok` in every case — the error constructor is never
produced. -/
def detectChanges (connOk : Bool) (orders : List SrcRow) (since now : Int) :
    Except Unit (List DetChange) :=
  if connOk then
    Except.ok ((snapshotQuery orders since).map (classifyRow since now))
  else
    Except.ok []

/-- Maximum of a list of timestamps, as Python's `max` over a nonempty
generator. -/
def maxInt : List Int → Option Int
  | [] => none
  | x :: xs => some (xs.foldl max x)

/-- The watermark step of one `extract_changes` iteration: with changes,
save the maximum `last_updated` among them; without, leave the watermark
alone. -/
def nextWatermark (watermark : Int) (changes : List DetChange) : Int :=
  match maxInt (changes.map (fun c => c.row.last_updated)) with
  | some t => t
  | none => watermark

/-- One full poll iteration as it affects the stored watermark: detect
from the current watermark, then apply the watermark step (a raised
detection error would leave the file untouched). -/
def extractBatch (connOk : Bool) (orders : List SrcRow) (watermark now : Int) : Int :=
  match detectChanges connOk orders watermark now with
  | Except.ok changes => nextWatermark watermark changes
  | Except.error _ => watermark

/-! File-level model of `_save_watermark`. -/

/-- Primitive durable-store operations: opening a path in write mode
truncates it, writing appends the payload, renaming replaces the
destination with the source. -/
inductive FileOp where
  | openTrunc : String → FileOp
  | writeContent : String → String → FileOp
  | renameTo : String → String → FileOp
deriving Repr, DecidableEq

/-- A file system: contents by path. -/
def FileSys := String → Option String

/-- Effect of one primitive operation. -/
def applyOp (fs : FileSys) : FileOp → FileSys
  | FileOp.openTrunc p => fun q => if q = p then some "" else fs q
  | FileOp.writeContent p str => fun q => if q = p then some ((fs p).getD "" ++ str) else fs q
  | FileOp.renameTo src dst => fun q =>
      if q = dst then fs src else if q = src then none else fs q

/-- Effect of a sequence of operations. -/
def applyOps (fs : FileSys) (ops : List FileOp) : FileSys :=
  ops.foldl applyOp fs

/-- The watermark file path. -/
def watermarkPath : String := "data/cdc_logs/.watermark"

/-- Translation of `_save_watermark`: `open(self.watermark_file, 'w')`
then `f.write(timestamp.isoformat())` — truncate the watermark file in
place, then write the new value. -/
def saveWatermarkOps (ts : String) : List FileOp :=
  [FileOp.openTrunc watermarkPath, FileOp.writeContent watermarkPath ts]

/-- Modelled from the spec: `set(ts)` "persists atomically
(write-new-then-replace, never a partial write visible to readers)" —
every reader-visible intermediate state of the watermark path shows
either the old value or the new one. -/
def atomicallyReplaces (ops : List FileOp) (path old new : String) : Prop :=
  ∀ n, applyOps (fun q => if q = path then some old else none) (ops.take n) path = some old ∨
       applyOps (fun q => if q = path then some old else none) (ops.take n) path = some new

/-! Concrete values: the worked scenarios of the specification's
testable-properties section, used to instantiate the theorems below. -/

/-- An empty warehouse: no rows, surrogate sequence at 1. -/
def demoS0 : WState := ⟨[], 1⟩

/-- A change record for the demo order key 7. -/
def demoChange (op : String) (q : Nat) (st : String) (ts : Int) : Change :=
  { id := 7, customer_id := 1, product_id := 2, quantity := q, unit_price := 10,
    total_amount := 10 * q, order_status := st, order_date := "2026-02-01",
    operation_type := op, cdc_timestamp := ts }

/-- The coalescing scenario: INSERT(qty 1, pending, t0), UPDATE(qty 2,
confirmed, t1), UPDATE(qty 3, shipped, t2) for one key in one batch. -/
def demoBatch : List Change :=
  [demoChange "INSERT" 1 "pending" 0, demoChange "UPDATE" 2 "confirmed" 1,
    demoChange "UPDATE" 3 "shipped" 2]

/-- The state after applying the coalescing batch to the empty warehouse. -/
def demoSA : WState :=
  (processBatchChanges demoBatch (batchIdOf demoBatch) demoS0).getD demoS0

/-- A single INSERT change for order key 1. -/
def demoIns : Change :=
  { id := 1, customer_id := 1, product_id := 2, quantity := 1, unit_price := 10,
    total_amount := 10, order_status := "pending", order_date := "2026-02-01",
    operation_type := "INSERT", cdc_timestamp := 0 }

/-- A DELETE change for order key 1 at a later capture time. -/
def demoDel : Change :=
  { demoIns with
    operation_type := "DELETE"
    cdc_timestamp := 5 }

/-- Outcome of loading the INSERT batch artifact into the empty warehouse. -/
def demoOut1 : BatchOutcome :=
  processBatchFile [] "changes_a.json" [demoIns] demoS0

/-- Outcome of loading the DELETE batch artifact on top of that. -/
def demoOut2 : BatchOutcome :=
  processBatchFile demoOut1.ledger "changes_b.json" [demoDel] demoOut1.state

/-- A current dimension row for order key 1 (as left by `demoIns`). -/
def demoCur : Row := mkNewRow demoIns [1] 1

/-- A warehouse holding exactly that one current row. -/
def demoS1 : WState := ⟨[demoCur], 2⟩

/-- An UPDATE for key 1 that really changes the quantity. -/
def demoUpd : Change :=
  { demoIns with
    operation_type := "UPDATE"
    quantity := 4
    total_amount := 40
    cdc_timestamp := 3 }

/-- An UPDATE for key 1 whose compared attributes equal the current row's. -/
def demoSame : Change :=
  { demoIns with
    operation_type := "UPDATE"
    cdc_timestamp := 3 }

/-- A source row whose creation predates its last modification. -/
def demoSrcRow : SrcRow :=
  { id := 1, customer_id := 1, product_id := 2, quantity := 1, unit_price := 10,
    total_amount := 10, order_status := "pending", order_date := "2026-02-01",
    last_updated := 5, created_at := 3 }

/-! Helper lemmas: the stable timestamp sort and the effective-change
selection. -/

theorem mem_insertByTimestamp {b a : Change} {l : List Change} :
    b ∈ insertByTimestamp a l ↔ b = a ∨ b ∈ l := by
  induction l with
  | nil => simp [insertByTimestamp]
  | cons x xs ih =>
    simp only [insertByTimestamp]
    split
    · simp [List.mem_cons]
    · simp only [List.mem_cons, ih]
      tauto

theorem insertByTimestamp_ne_nil (a : Change) (l : List Change) :
    insertByTimestamp a l ≠ [] := by
  cases l with
  | nil => simp [insertByTimestamp]
  | cons x xs =>
    simp only [insertByTimestamp]
    split <;> simp

theorem sortByTimestamp_cons (a : Change) (l : List Change) :
    sortByTimestamp (a :: l) = insertByTimestamp a (sortByTimestamp l) := rfl

theorem mem_sortByTimestamp {b : Change} {l : List Change} :
    b ∈ sortByTimestamp l ↔ b ∈ l := by
  induction l with
  | nil => simp [sortByTimestamp]
  | cons x xs ih => simp [sortByTimestamp_cons, mem_insertByTimestamp, ih]

theorem sortByTimestamp_eq_nil_iff {l : List Change} :
    sortByTimestamp l = [] ↔ l = [] := by
  cases l with
  | nil => simp [sortByTimestamp]
  | cons x xs =>
    simp only [sortByTimestamp_cons]
    exact ⟨fun h => absurd h (insertByTimestamp_ne_nil _ _), fun h => by simp at h⟩

theorem pairwise_insertByTimestamp {a : Change} {l : List Change}
    (h : l.Pairwise (fun x y => x.cdc_timestamp ≤ y.cdc_timestamp)) :
    (insertByTimestamp a l).Pairwise (fun x y => x.cdc_timestamp ≤ y.cdc_timestamp) := by
  induction l with
  | nil => simp [insertByTimestamp]
  | cons x xs ih =>
    rcases List.pairwise_cons.mp h with ⟨hx, hxs⟩
    simp only [insertByTimestamp]
    split
    · rename_i hle
      refine List.pairwise_cons.mpr ⟨?_, h⟩
      intro b hb
      rcases List.mem_cons.mp hb with rfl | hb
      · exact hle
      · exact le_trans hle (hx b hb)
    · rename_i hgt
      refine List.pairwise_cons.mpr ⟨?_, ih hxs⟩
      intro b hb
      rcases mem_insertByTimestamp.mp hb with rfl | hb
      · exact le_of_not_le hgt
      · exact hx b hb

theorem pairwise_sortByTimestamp (l : List Change) :
    (sortByTimestamp l).Pairwise (fun x y => x.cdc_timestamp ≤ y.cdc_timestamp) := by
  induction l with
  | nil => simp [sortByTimestamp]
  | cons x xs ih => exact pairwise_insertByTimestamp ih

theorem mem_of_getLast?_eq_some {α : Type} {l : List α} {a : α}
    (h : l.getLast? = some a) : a ∈ l := by
  obtain ⟨hne, rfl⟩ := List.mem_getLast?_eq_getLast (l := l) (x := a) h
  exact List.getLast_mem hne

theorem sorted_getLast_ge {m : List Change} {c : Change}
    (hs : m.Pairwise (fun x y => x.cdc_timestamp ≤ y.cdc_timestamp))
    (hc : m.getLast? = some c) :
    ∀ x ∈ m, x.cdc_timestamp ≤ c.cdc_timestamp := by
  induction m with
  | nil => simp at hc
  | cons x xs ih =>
    rcases List.pairwise_cons.mp hs with ⟨hx, hxs⟩
    cases xs with
    | nil =>
      simp only [List.getLast?_singleton, Option.some.injEq] at hc
      subst hc
      simp
    | cons y ys =>
      rw [List.getLast?_cons_cons] at hc
      have htail := ih hxs hc
      intro z hz
      rcases List.mem_cons.mp hz with rfl | hz
      · have hcm : c ∈ y :: ys := mem_of_getLast?_eq_some hc
        exact hx c hcm
      · exact htail z hz

theorem getLast?_insertByTimestamp_some {a b : Change} {l : List Change}
    (h : l.Pairwise (fun x y => x.cdc_timestamp ≤ y.cdc_timestamp))
    (hb : l.getLast? = some b) :
    (insertByTimestamp a l).getLast? =
      some (if a.cdc_timestamp ≤ b.cdc_timestamp then b else a) := by
  induction l with
  | nil => simp at hb
  | cons x xs ih =>
    rcases List.pairwise_cons.mp h with ⟨hx, hxs⟩
    cases xs with
    | nil =>
      simp only [List.getLast?_singleton, Option.some.injEq] at hb
      subst hb
      simp only [insertByTimestamp]
      split
      · rename_i hle
        simp [hle]
      · rename_i hgt
        simp [hgt]
    | cons y ys =>
      rw [List.getLast?_cons_cons] at hb
      simp only [insertByTimestamp]
      split
      · rename_i hle
        have hbm : b ∈ y :: ys := mem_of_getLast?_eq_some hb
        have hxb : x.cdc_timestamp ≤ b.cdc_timestamp := hx b hbm
        have hab : a.cdc_timestamp ≤ b.cdc_timestamp := le_trans hle hxb
        rw [List.getLast?_cons_cons, List.getLast?_cons_cons, hb, if_pos hab]
      · rename_i hgt
        obtain ⟨w, ws, hw⟩ := List.exists_cons_of_ne_nil (insertByTimestamp_ne_nil a (y :: ys))
        show (x :: insertByTimestamp a (y :: ys)).getLast? = _
        rw [hw, List.getLast?_cons_cons, ← hw, ih hxs hb]

theorem latestChange_mem_ge {l : List Change} {c : Change}
    (h : latestChange l = some c) :
    c ∈ l ∧ ∀ b ∈ l, b.cdc_timestamp ≤ c.cdc_timestamp := by
  have hmem : c ∈ sortByTimestamp l := mem_of_getLast?_eq_some h
  refine ⟨mem_sortByTimestamp.mp hmem, fun b hb => ?_⟩
  exact sorted_getLast_ge (pairwise_sortByTimestamp l) h b (mem_sortByTimestamp.mpr hb)

theorem latestChange_isSome {l : List Change} (h : l ≠ []) :
    ∃ c, latestChange l = some c := by
  have hs : sortByTimestamp l ≠ [] := fun hnil => h (sortByTimestamp_eq_nil_iff.mp hnil)
  obtain ⟨w, ws, hw⟩ := List.exists_cons_of_ne_nil hs
  exact ⟨(w :: ws).getLast (by simp), by rw [latestChange, hw, List.getLast?_eq_getLast]⟩

theorem latestChange_decomposition : ∀ {l : List Change} {c : Change},
    latestChange l = some c →
    ∃ l₁ l₂, l = l₁ ++ c :: l₂ ∧ ∀ b ∈ l₂, b.cdc_timestamp < c.cdc_timestamp := by
  intro l
  induction l with
  | nil => intro c h; simp [latestChange, sortByTimestamp] at h
  | cons a l' ih =>
    intro c h
    by_cases hl' : l' = []
    · subst hl'
      simp only [latestChange, sortByTimestamp, List.foldr, insertByTimestamp,
        List.getLast?_singleton, Option.some.injEq] at h
      subst h
      exact ⟨[], [], rfl, by simp⟩
    · obtain ⟨b, hb⟩ := latestChange_isSome hl'
      have hlast : latestChange (a :: l') =
          some (if a.cdc_timestamp ≤ b.cdc_timestamp then b else a) := by
        rw [latestChange, sortByTimestamp_cons]
        exact getLast?_insertByTimestamp_some (pairwise_sortByTimestamp l') hb
      rw [hlast] at h
      by_cases hab : a.cdc_timestamp ≤ b.cdc_timestamp
      · rw [if_pos hab] at h
        obtain rfl : b = c := by injection h
        obtain ⟨l₁, l₂, heq, hlt⟩ := ih hb
        exact ⟨a :: l₁, l₂, by rw [heq]; rfl, hlt⟩
      · rw [if_neg hab] at h
        obtain rfl : a = c := by injection h
        refine ⟨[], l', rfl, fun x hx => ?_⟩
        have hxb := (latestChange_mem_ge hb).2 x hx
        exact lt_of_le_of_lt hxb (lt_of_not_le hab)

/-! Helper lemmas: current-row bookkeeping for the SCD2 transitions. -/

theorem currentRowsFor_eq_nil_iff {k : Nat} {s : WState} :
    currentRowsFor k s = [] ↔ getCurrentRecord k s = none := by
  rw [currentRowsFor, getCurrentRecord, List.filter_eq_nil_iff, List.find?_eq_none]

theorem current_mem_currentRowsFor {k : Nat} {s : WState} {cur : Row}
    (h : getCurrentRecord k s = some cur) : cur ∈ currentRowsFor k s := by
  rw [getCurrentRecord] at h
  have h1 : cur ∈ s.rows := List.mem_of_find?_eq_some h
  have h2 := List.find?_some h
  exact List.mem_filter.mpr ⟨h1, h2⟩

theorem length_currentRowsFor_eq_one {k : Nat} {s : WState} {cur : Row}
    (hinv : atMostOneCurrent s) (h : getCurrentRecord k s = some cur) :
    (currentRowsFor k s).length = 1 := by
  have h1 : 0 < (currentRowsFor k s).length :=
    List.length_pos.mpr (List.ne_nil_of_mem (current_mem_currentRowsFor h))
  have h2 := hinv k
  omega

theorem currentRowsFor_expireCurrent_self (k : Nat) (ts : Int) (s : WState) :
    currentRowsFor k (expireCurrent k ts s) = [] := by
  rw [currentRowsFor, List.filter_eq_nil_iff]
  intro r hr
  simp only [expireCurrent] at hr
  obtain ⟨r0, hr0, rfl⟩ := List.mem_map.mp hr
  by_cases hc : (r0.order_key == k && r0.is_current) = true
  · rw [if_pos hc]
    simp [closeRow]
  · rw [if_neg hc]
    simpa using hc

theorem currentRowsFor_expireCurrent_other {k1 k : Nat} (h : k1 ≠ k) (ts : Int) (s : WState) :
    currentRowsFor k1 (expireCurrent k ts s) = currentRowsFor k1 s := by
  simp only [currentRowsFor, expireCurrent]
  induction s.rows with
  | nil => rfl
  | cons r rs ih =>
    simp only [List.map_cons, List.filter_cons]
    by_cases hc : (r.order_key == k && r.is_current) = true
    · have hk : r.order_key = k := by
        have h1 := (Bool.and_eq_true _ _).mp hc
        simpa using h1.1
      have hnot1 : ((closeRow r ts).order_key == k1 && (closeRow r ts).is_current) = false := by
        simp [closeRow]
      have hnot2 : (r.order_key == k1 && r.is_current) = false := by
        rw [hk]
        simp only [Bool.and_eq_false_iff]
        left
        simpa using fun he => h he.symm
      rw [if_pos hc, hnot1, hnot2]
      simpa using ih
    · rw [if_neg hc]
      by_cases hp : (r.order_key == k1 && r.is_current) = true
      · rw [hp]
        simpa using ih
      · have hpf : (r.order_key == k1 && r.is_current) = false := by simpa using hp
        rw [hpf]
        simpa using ih

theorem currentRowsFor_insertNewRecord_self (change : Change) (bid : List Nat) (s : WState) :
    currentRowsFor change.id (insertNewRecord change bid s) =
      currentRowsFor change.id s ++ [mkNewRow change bid s.nextKey] := by
  simp [currentRowsFor, insertNewRecord, List.filter_append, mkNewRow]

theorem currentRowsFor_insertNewRecord_other {k : Nat} (change : Change) (bid : List Nat)
    (s : WState) (h : k ≠ change.id) :
    currentRowsFor k (insertNewRecord change bid s) = currentRowsFor k s := by
  have hne : (change.id == k) = false := by
    simp
    exact fun he => h he.symm
  simp [currentRowsFor, insertNewRecord, List.filter_append, mkNewRow, hne]

/-! Helper lemmas: closed forms of the fueled transition functions for
any fuel at least two. -/

theorem processInsertChange_closed (fuel : Nat) (change : Change) (bid : List Nat)
    (s : WState) :
    processInsertChange (fuel + 2) change bid s =
      match getCurrentRecord change.id s with
      | some cur =>
        if cur.cdc_timestamp == change.cdc_timestamp && cur.cdc_operation == "INSERT" then
          some s
        else if hasChanges cur change then
          some (insertNewRecord change bid (expireCurrent change.id change.cdc_timestamp s))
        else some s
      | none => some (insertNewRecord change bid s) := by
  have h2 : fuel + 2 = (fuel + 1) + 1 := rfl
  rw [h2]
  cases hcur : getCurrentRecord change.id s with
  | none => simp [processInsertChange, hcur]
  | some cur =>
    by_cases hdup : (cur.cdc_timestamp == change.cdc_timestamp &&
        cur.cdc_operation == "INSERT") = true
    · simp [processInsertChange, hcur, hdup]
    · simp [processInsertChange, processUpdateChange, hcur, hdup]

theorem processUpdateChange_closed (fuel : Nat) (change : Change) (bid : List Nat)
    (s : WState) :
    processUpdateChange (fuel + 2) change bid s =
      match getCurrentRecord change.id s with
      | some cur =>
        if hasChanges cur change then
          some (insertNewRecord change bid (expireCurrent change.id change.cdc_timestamp s))
        else some s
      | none => some (insertNewRecord change bid s) := by
  have h2 : fuel + 2 = (fuel + 1) + 1 := rfl
  rw [h2]
  cases hcur : getCurrentRecord change.id s with
  | none => simp [processInsertChange, processUpdateChange, hcur]
  | some cur => simp [processUpdateChange, hcur]

theorem processInsertChange_two (change : Change) (bid : List Nat) (s : WState) :
    processInsertChange 2 change bid s =
      match getCurrentRecord change.id s with
      | some cur =>
        if cur.cdc_timestamp == change.cdc_timestamp && cur.cdc_operation == "INSERT" then
          some s
        else if hasChanges cur change then
          some (insertNewRecord change bid (expireCurrent change.id change.cdc_timestamp s))
        else some s
      | none => some (insertNewRecord change bid s) :=
  processInsertChange_closed 0 change bid s

theorem processUpdateChange_two (change : Change) (bid : List Nat) (s : WState) :
    processUpdateChange 2 change bid s =
      match getCurrentRecord change.id s with
      | some cur =>
        if hasChanges cur change then
          some (insertNewRecord change bid (expireCurrent change.id change.cdc_timestamp s))
        else some s
      | none => some (insertNewRecord change bid s) :=
  processUpdateChange_closed 0 change bid s

/-- Exhaustive case analysis of one `_process_change_record` call: it
fails on an unknown operation, or leaves the state alone (duplicate
INSERT, value-identical UPDATE), or appends one new version (fresh key),
or closes the key's current rows and appends one new version, or merely
closes them (DELETE). -/
theorem processChangeRecord_cases (change : Change) (bid : List Nat) (s : WState) :
    (processChangeRecord change bid s = none ∧ change.operation_type ≠ "INSERT" ∧
      change.operation_type ≠ "UPDATE" ∧ change.operation_type ≠ "DELETE") ∨
    (processChangeRecord change bid s = some s ∧
      (getCurrentRecord change.id s).isSome = true ∧
      (change.operation_type = "INSERT" ∨ change.operation_type = "UPDATE")) ∨
    (processChangeRecord change bid s = some (insertNewRecord change bid s) ∧
      getCurrentRecord change.id s = none ∧
      (change.operation_type = "INSERT" ∨ change.operation_type = "UPDATE")) ∨
    (processChangeRecord change bid s =
        some (insertNewRecord change bid (expireCurrent change.id change.cdc_timestamp s)) ∧
      (getCurrentRecord change.id s).isSome = true ∧
      (change.operation_type = "INSERT" ∨ change.operation_type = "UPDATE")) ∨
    (processChangeRecord change bid s =
        some (expireCurrent change.id change.cdc_timestamp s) ∧
      change.operation_type = "DELETE") := by
  rw [processChangeRecord]
  by_cases hop1 : (change.operation_type == "INSERT") = true
  · have hop1e : change.operation_type = "INSERT" := by simpa using hop1
    rw [if_pos hop1, processInsertChange_two]
    cases hcur : getCurrentRecord change.id s with
    | none =>
      right; right; left
      exact ⟨rfl, rfl, Or.inl hop1e⟩
    | some cur =>
      by_cases hdup : (cur.cdc_timestamp == change.cdc_timestamp &&
          cur.cdc_operation == "INSERT") = true
      · right; left
        exact ⟨by simp [hdup], rfl, Or.inl hop1e⟩
      · by_cases hch : hasChanges cur change = true
        · right; right; right; left
          exact ⟨by simp [hdup, hch], rfl, Or.inl hop1e⟩
        · right; left
          exact ⟨by simp [hdup, hch], rfl, Or.inl hop1e⟩
  · rw [if_neg hop1]
    by_cases hop2 : (change.operation_type == "UPDATE") = true
    · have hop2e : change.operation_type = "UPDATE" := by simpa using hop2
      rw [if_pos hop2, processUpdateChange_two]
      cases hcur : getCurrentRecord change.id s with
      | none =>
        right; right; left
        exact ⟨rfl, rfl, Or.inr hop2e⟩
      | some cur =>
        by_cases hch : hasChanges cur change = true
        · right; right; right; left
          exact ⟨by simp [hch], rfl, Or.inr hop2e⟩
        · right; left
          exact ⟨by simp [hch], rfl, Or.inr hop2e⟩
    · rw [if_neg hop2]
      by_cases hop3 : (change.operation_type == "DELETE") = true
      · have hop3e : change.operation_type = "DELETE" := by simpa using hop3
        right; right; right; right
        exact ⟨by rw [if_pos hop3]; rfl, hop3e⟩
      · left
        exact ⟨by rw [if_neg hop3], by simpa using hop1, by simpa using hop2,
          by simpa using hop3⟩

theorem processChangeRecord_frame {change : Change} {bid : List Nat} {s s1 : WState}
    {k : Nat} (h : processChangeRecord change bid s = some s1) (hk : k ≠ change.id) :
    currentRowsFor k s1 = currentRowsFor k s := by
  rcases processChangeRecord_cases change bid s with
    ⟨hn, _⟩ | ⟨he, _⟩ | ⟨he, _⟩ | ⟨he, _⟩ | ⟨he, _⟩
  · rw [h] at hn; cases hn
  · rw [h] at he; injection he with he; rw [he]
  · rw [h] at he; injection he with he; rw [he]
    exact currentRowsFor_insertNewRecord_other change bid s hk
  · rw [h] at he; injection he with he; rw [he]
    rw [currentRowsFor_insertNewRecord_other change bid _ hk]
    exact currentRowsFor_expireCurrent_other hk _ s
  · rw [h] at he; injection he with he; rw [he]
    exact currentRowsFor_expireCurrent_other hk _ s

theorem processChangeRecord_count {change : Change} {bid : List Nat} {s s1 : WState}
    (hinv : atMostOneCurrent s) (h : processChangeRecord change bid s = some s1) :
    atMostOneCurrent s1 ∧
    (currentRowsFor change.id s1).length =
      (if change.operation_type = "DELETE" then 0 else 1) := by
  rcases processChangeRecord_cases change bid s with
    ⟨hn, _⟩ | ⟨he, hcur, hop⟩ | ⟨he, hcur, hop⟩ | ⟨he, hcur, hop⟩ | ⟨he, hop⟩
  · rw [h] at hn; cases hn
  · rw [h] at he; injection he with he; subst he
    obtain ⟨cur, hc⟩ := Option.isSome_iff_exists.mp hcur
    have hnd : change.operation_type ≠ "DELETE" := by
      rcases hop with hop | hop <;> rw [hop] <;> decide
    rw [if_neg hnd]
    exact ⟨hinv, length_currentRowsFor_eq_one hinv hc⟩
  · rw [h] at he; injection he with he; subst he
    have hnil : currentRowsFor change.id s = [] := currentRowsFor_eq_nil_iff.mpr hcur
    have hnd : change.operation_type ≠ "DELETE" := by
      rcases hop with hop | hop <;> rw [hop] <;> decide
    rw [if_neg hnd]
    constructor
    · intro k
      by_cases hk : k = change.id
      · subst hk
        rw [currentRowsFor_insertNewRecord_self, hnil]
        simp
      · rw [currentRowsFor_insertNewRecord_other change bid s hk]
        exact hinv k
    · rw [currentRowsFor_insertNewRecord_self, hnil]
      simp
  · rw [h] at he; injection he with he; subst he
    have hnd : change.operation_type ≠ "DELETE" := by
      rcases hop with hop | hop <;> rw [hop] <;> decide
    rw [if_neg hnd]
    constructor
    · intro k
      by_cases hk : k = change.id
      · subst hk
        rw [currentRowsFor_insertNewRecord_self, currentRowsFor_expireCurrent_self]
        simp
      · rw [currentRowsFor_insertNewRecord_other change bid _ hk,
          currentRowsFor_expireCurrent_other hk _ s]
        exact hinv k
    · rw [currentRowsFor_insertNewRecord_self, currentRowsFor_expireCurrent_self]
      simp
  · rw [h] at he; injection he with he; subst he
    rw [if_pos hop]
    constructor
    · intro k
      by_cases hk : k = change.id
      · subst hk
        rw [currentRowsFor_expireCurrent_self]
        simp
      · rw [currentRowsFor_expireCurrent_other hk _ s]
        exact hinv k
    · rw [currentRowsFor_expireCurrent_self]
      rfl

theorem versionOf_refl (r : Row) : versionOf r r := Or.inl rfl

theorem closeRow_closeRow (r : Row) (t1 t2 : Int) :
    closeRow (closeRow r t1) t2 = closeRow r t2 := rfl

theorem versionOf_trans {a b c : Row} (h1 : versionOf a b) (h2 : versionOf b c) :
    versionOf a c := by
  rcases h1 with rfl | ⟨t1, rfl⟩
  · exact h2
  · rcases h2 with rfl | ⟨t2, rfl⟩
    · exact Or.inr ⟨t1, rfl⟩
    · exact Or.inr ⟨t2, (closeRow_closeRow a t1 t2).symm⟩

theorem mem_expireCurrent_rows {r : Row} {k : Nat} {ts : Int} {s : WState}
    (h : r ∈ (expireCurrent k ts s).rows) : ∃ r0 ∈ s.rows, versionOf r0 r := by
  simp only [expireCurrent] at h
  obtain ⟨r0, hr0, rfl⟩ := List.mem_map.mp h
  refine ⟨r0, hr0, ?_⟩
  by_cases hc : (r0.order_key == k && r0.is_current) = true
  · rw [if_pos hc]
    exact Or.inr ⟨ts, rfl⟩
  · rw [if_neg hc]
    exact versionOf_refl r0

theorem processChangeRecord_provenance {change : Change} {bid : List Nat} {s s1 : WState}
    (h : processChangeRecord change bid s = some s1) :
    ∀ r ∈ s1.rows,
      (∃ r0 ∈ s.rows, versionOf r0 r) ∨ ∃ sk, versionOf (mkNewRow change bid sk) r := by
  rcases processChangeRecord_cases change bid s with
    ⟨hn, _⟩ | ⟨he, _⟩ | ⟨he, _⟩ | ⟨he, _⟩ | ⟨he, _⟩
  · rw [h] at hn; cases hn
  · rw [h] at he; injection he with he; subst he
    exact fun r hr => Or.inl ⟨r, hr, versionOf_refl r⟩
  · rw [h] at he; injection he with he; subst he
    intro r hr
    simp only [insertNewRecord] at hr
    rcases List.mem_append.mp hr with hr | hr
    · exact Or.inl ⟨r, hr, versionOf_refl r⟩
    · rw [List.mem_singleton] at hr
      exact Or.inr ⟨s.nextKey, Or.inl hr⟩
  · rw [h] at he; injection he with he; subst he
    intro r hr
    simp only [insertNewRecord] at hr
    rcases List.mem_append.mp hr with hr | hr
    · exact Or.inl (mem_expireCurrent_rows hr)
    · rw [List.mem_singleton] at hr
      exact Or.inr ⟨(expireCurrent change.id change.cdc_timestamp s).nextKey, Or.inl hr⟩
  · rw [h] at he; injection he with he; subst he
    exact fun r hr => Or.inl (mem_expireCurrent_rows hr)

/-! Helper lemmas: the key order of the batch dictionary. -/

theorem orderKeys_aux_mem (l : List Change) :
    ∀ (acc : List Nat) (k : Nat),
      (k ∈ l.foldl (fun ks c => if ks.contains c.id then ks else ks ++ [c.id]) acc ↔
        k ∈ acc ∨ ∃ c ∈ l, c.id = k) := by
  induction l with
  | nil => simp
  | cons c cs ih =>
    intro acc k
    rw [List.foldl_cons, ih]
    have hstep : k ∈ (if acc.contains c.id then acc else acc ++ [c.id]) ↔
        k ∈ acc ∨ c.id = k := by
      by_cases hc : acc.contains c.id = true
      · rw [if_pos hc]
        have hm : c.id ∈ acc := by simpa using hc
        constructor
        · exact Or.inl
        · rintro (hk | rfl)
          · exact hk
          · exact hm
      · rw [if_neg hc]
        simp [List.mem_append, eq_comm]
    rw [hstep]
    simp only [List.mem_cons]
    constructor
    · rintro ((hk | rfl) | ⟨c2, hc2, rfl⟩)
      · exact Or.inl hk
      · exact Or.inr ⟨c, Or.inl rfl, rfl⟩
      · exact Or.inr ⟨c2, Or.inr hc2, rfl⟩
    · rintro (hk | ⟨c2, (rfl | hc2), rfl⟩)
      · exact Or.inl (Or.inl hk)
      · exact Or.inl (Or.inr rfl)
      · exact Or.inr ⟨c2, hc2, rfl⟩

theorem orderKeys_aux_nodup (l : List Change) :
    ∀ acc : List Nat, acc.Nodup →
      (l.foldl (fun ks c => if ks.contains c.id then ks else ks ++ [c.id]) acc).Nodup := by
  induction l with
  | nil => exact fun acc h => h
  | cons c cs ih =>
    intro acc hacc
    rw [List.foldl_cons]
    apply ih
    by_cases hc : acc.contains c.id = true
    · rw [if_pos hc]; exact hacc
    · rw [if_neg hc]
      have hnm : c.id ∉ acc := by simpa using hc
      simp [List.nodup_append, hacc, hnm]

theorem mem_orderKeys {changes : List Change} {k : Nat} :
    k ∈ orderKeys changes ↔ ∃ c ∈ changes, c.id = k := by
  rw [orderKeys, orderKeys_aux_mem]
  simp

theorem orderKeys_nodup (changes : List Change) : (orderKeys changes).Nodup :=
  orderKeys_aux_nodup changes [] List.nodup_nil

theorem changesForKey_ne_nil {changes : List Change} {k : Nat}
    (h : k ∈ orderKeys changes) : changesForKey changes k ≠ [] := by
  obtain ⟨c, hc, rfl⟩ := mem_orderKeys.mp h
  have hm : c ∈ changesForKey changes c.id :=
    List.mem_filter.mpr ⟨hc, by simp⟩
  exact List.ne_nil_of_mem hm

theorem latestChange_id {changes : List Change} {k : Nat} {c : Change}
    (h : latestChange (changesForKey changes k) = some c) : c.id = k := by
  have hm := (latestChange_mem_ge h).1
  have := (List.mem_filter.mp hm).2
  simpa using this

theorem foldlM_keys_count (changes : List Change) (bid : List Nat) :
    ∀ (keys : List Nat) (s s1 : WState), keys.Nodup → atMostOneCurrent s →
      keys.foldlM (processOrderGroup changes bid) s = some s1 →
      atMostOneCurrent s1 ∧
      (∀ k, k ∉ keys → currentRowsFor k s1 = currentRowsFor k s) ∧
      (∀ k ∈ keys, ∃ c, latestChange (changesForKey changes k) = some c ∧ c.id = k ∧
        (currentRowsFor k s1).length = (if c.operation_type = "DELETE" then 0 else 1)) := by
  intro keys
  induction keys with
  | nil =>
    intro s s1 _ hinv h
    simp only [List.foldlM_nil] at h
    obtain rfl : s = s1 := by simpa using h
    exact ⟨hinv, fun k _ => rfl, by simp⟩
  | cons k0 ks ih =>
    intro s s1 hnd hinv h
    rw [List.foldlM_cons] at h
    cases hg : processOrderGroup changes bid s k0 with
    | none => rw [hg] at h; exact absurd h (by simp)
    | some s2 =>
      rw [hg] at h
      replace h : ks.foldlM (processOrderGroup changes bid) s2 = some s1 := h
      rw [processOrderGroup] at hg
      cases hl : latestChange (changesForKey changes k0) with
      | none => rw [hl] at hg; cases hg
      | some c =>
        rw [hl] at hg
        have hid : c.id = k0 := latestChange_id hl
        have hcount := processChangeRecord_count hinv hg
        have hnd2 := List.nodup_cons.mp hnd
        obtain ⟨hinv1, hframe, hkeys⟩ := ih s2 s1 hnd2.2 hcount.1 h
        refine ⟨hinv1, ?_, ?_⟩
        · intro k hk
          simp only [List.mem_cons, not_or] at hk
          rw [hframe k hk.2]
          exact processChangeRecord_frame hg (by rw [hid]; exact hk.1)
        · intro k hk
          rcases List.mem_cons.mp hk with rfl | hk
          · refine ⟨c, hl, hid, ?_⟩
            rw [hframe k hnd2.1, ← hid]
            exact hcount.2
          · exact hkeys k hk

theorem foldlM_keys_provenance (changes : List Change) (bid : List Nat) :
    ∀ (keys : List Nat) (s s1 : WState),
      keys.foldlM (processOrderGroup changes bid) s = some s1 →
      ∀ r ∈ s1.rows,
        (∃ r0 ∈ s.rows, versionOf r0 r) ∨
        (∃ k ∈ keys, ∃ c sk, latestChange (changesForKey changes k) = some c ∧
          versionOf (mkNewRow c bid sk) r) := by
  intro keys
  induction keys with
  | nil =>
    intro s s1 h
    simp only [List.foldlM_nil] at h
    obtain rfl : s = s1 := by simpa using h
    exact fun r hr => Or.inl ⟨r, hr, versionOf_refl r⟩
  | cons k0 ks ih =>
    intro s s1 h
    rw [List.foldlM_cons] at h
    cases hg : processOrderGroup changes bid s k0 with
    | none => rw [hg] at h; exact absurd h (by simp)
    | some s2 =>
      rw [hg] at h
      replace h : ks.foldlM (processOrderGroup changes bid) s2 = some s1 := h
      rw [processOrderGroup] at hg
      cases hl : latestChange (changesForKey changes k0) with
      | none => rw [hl] at hg; cases hg
      | some c =>
        rw [hl] at hg
        intro r hr
        rcases ih s2 s1 h r hr with ⟨r2, hr2, hv⟩ | ⟨k, hk, c2, sk, hc2, hv⟩
        · rcases processChangeRecord_provenance hg r2 hr2 with ⟨r0, hr0, hv0⟩ | ⟨sk, hv0⟩
          · exact Or.inl ⟨r0, hr0, versionOf_trans hv0 hv⟩
          · exact Or.inr ⟨k0, List.mem_cons_self k0 ks, c, sk, hl, versionOf_trans hv0 hv⟩
        · exact Or.inr ⟨k, List.mem_cons_of_mem k0 hk, c2, sk, hc2, hv⟩

/-! Helper lemmas: the extractor's snapshot and watermark arithmetic. -/

theorem mem_insertRow {b a : SrcRow} {l : List SrcRow} :
    b ∈ insertRow a l ↔ b = a ∨ b ∈ l := by
  induction l with
  | nil => simp [insertRow]
  | cons x xs ih =>
    simp only [insertRow]
    split
    · simp only [List.mem_cons, ih]
      tauto
    · simp [List.mem_cons]

theorem mem_sortRows {b : SrcRow} {l : List SrcRow} :
    b ∈ sortRows l ↔ b ∈ l := by
  induction l with
  | nil => simp [sortRows]
  | cons x xs ih =>
    have hc : sortRows (x :: xs) = insertRow x (sortRows xs) := rfl
    simp [hc, mem_insertRow, ih]

theorem foldl_max_spec (l : List Int) :
    ∀ a : Int, a ≤ l.foldl max a ∧ (l.foldl max a = a ∨ l.foldl max a ∈ l) ∧
      ∀ x ∈ l, x ≤ l.foldl max a := by
  induction l with
  | nil => intro a; simp
  | cons y ys ih =>
    intro a
    rw [List.foldl_cons]
    obtain ⟨h1, h2, h3⟩ := ih (max a y)
    refine ⟨le_trans (le_max_left a y) h1, ?_, ?_⟩
    · rcases h2 with h2 | h2
      · rw [h2]
        rcases max_choice a y with hm | hm
        · left; exact hm
        · right; rw [hm]; exact List.mem_cons_self y ys
      · right; exact List.mem_cons_of_mem y h2
    · intro x hx
      rcases List.mem_cons.mp hx with rfl | hx
      · exact le_trans (le_max_right a x) h1
      · exact h3 x hx

theorem maxInt_spec {l : List Int} {m : Int} (h : maxInt l = some m) :
    m ∈ l ∧ ∀ x ∈ l, x ≤ m := by
  cases l with
  | nil => cases h
  | cons y ys =>
    rw [maxInt] at h
    injection h with h
    obtain ⟨h1, h2, h3⟩ := foldl_max_spec ys y
    subst h
    constructor
    · rcases h2 with h2 | h2
      · rw [h2]; exact List.mem_cons_self y ys
      · exact List.mem_cons_of_mem y h2
    · intro x hx
      rcases List.mem_cons.mp hx with rfl | hx
      · exact h1
      · exact h3 x hx

theorem maxInt_eq_none_iff {l : List Int} : maxInt l = none ↔ l = [] := by
  cases l <;> simp [maxInt]

theorem mem_detected {connOk : Bool} {orders : List SrcRow} {since now : Int}
    {changes : List DetChange} {c : DetChange}
    (h : detectChanges connOk orders since now = Except.ok changes)
    (hc : c ∈ changes)
    (hwf : ∀ r ∈ orders, r.created_at ≤ r.last_updated) :
    c.row ∈ orders ∧ since < c.row.last_updated := by
  cases connOk with
  | false =>
    rw [detectChanges] at h
    simp only [Bool.false_eq_true, if_false, Except.ok.injEq] at h
    subst h
    cases hc
  | true =>
    rw [detectChanges] at h
    simp only [if_true, Except.ok.injEq] at h
    subst h
    obtain ⟨r, hr, rfl⟩ := List.mem_map.mp hc
    rw [snapshotQuery, mem_sortRows] at hr
    have hmem := List.mem_filter.mp hr
    have hcond := hmem.2
    simp only [Bool.or_eq_true, decide_eq_true_eq] at hcond
    refine ⟨hmem.1, ?_⟩
    rcases hcond with hlt | hlt
    · exact hlt
    · exact lt_of_lt_of_le hlt (hwf r hmem.1)

/-! Claim theorems. -/

/-- C10: with the table state fixed during one transition, the mutual
redirection between INSERT processing and UPDATE processing terminates
for every change record: fuel two (at most one redirection) already
yields the final result for any larger fuel, and the transition
succeeds. -/
theorem c10_redirection_terminates (fuel : Nat) (change : Change) (bid : List Nat)
    (s : WState) :
    processInsertChange (fuel + 2) change bid s = processInsertChange 2 change bid s ∧
    processUpdateChange (fuel + 2) change bid s = processUpdateChange 2 change bid s ∧
    (processInsertChange 2 change bid s).isSome = true ∧
    (processUpdateChange 2 change bid s).isSome = true := by
  refine ⟨?_, ?_, ?_, ?_⟩
  · rw [processInsertChange_closed, processInsertChange_two]
  · rw [processUpdateChange_closed, processUpdateChange_two]
  · rw [processInsertChange_two]
    cases getCurrentRecord change.id s with
    | none => rfl
    | some cur =>
      simp only []
      split
      · rfl
      · split <;> rfl
  · rw [processUpdateChange_two]
    cases getCurrentRecord change.id s with
    | none => rfl
    | some cur =>
      simp only []
      split <;> rfl

/-- C5: in the CURRENT-state UPDATE transition, when the incoming
change's compared attributes all equal the current version's, the
transition is a no-op: the warehouse state is returned unchanged — no
new row, the existing current row untouched, the surrogate sequence not
advanced. -/
theorem c5_update_noop_on_unchanged (change : Change) (bid : List Nat) (s : WState)
    (cur : Row) (hcur : getCurrentRecord change.id s = some cur)
    (hnc : hasChanges cur change = false) :
    processUpdateChange 2 change bid s = some s := by
  rw [processUpdateChange_two, hcur]
  simp [hnc]

/-- C5 witness: re-delivering a value-identical UPDATE against the
one-row warehouse changes nothing. -/
theorem c5_witness :
    getCurrentRecord demoSame.id demoS1 = some demoCur ∧
    hasChanges demoCur demoSame = false ∧
    processUpdateChange 2 demoSame [1] demoS1 = some demoS1 :=
  ⟨by decide, by decide,
    c5_update_noop_on_unchanged demoSame [1] demoS1 demoCur (by decide) (by decide)⟩

/-- C3: the close-current and insert-new steps of the CURRENT-state
UPDATE transition execute inside one transaction: for every failure
point the key ends with exactly one current row; on failure both halves
roll back, leaving the prior state (and its current row) intact; without
a failure the transactional run agrees with the plain transition. -/
theorem c3_update_pair_atomic (change : Change) (bid : List Nat) (s : WState) (cur : Row)
    (hinv : atMostOneCurrent s) (hcur : getCurrentRecord change.id s = some cur) :
    ∀ failInside : Bool,
      (currentRowsFor change.id (processUpdateChangeTx change bid s failInside).1).length
        = 1 ∧
      ((processUpdateChangeTx change bid s failInside).2 = false →
        (processUpdateChangeTx change bid s failInside).1 = s) ∧
      (processUpdateChangeTx change bid s false).1 =
        (processUpdateChange 2 change bid s).getD s := by
  intro failInside
  have hone := length_currentRowsFor_eq_one hinv hcur
  by_cases hch : hasChanges cur change = true
  · cases failInside with
    | true =>
      simp only [processUpdateChangeTx, hcur, if_pos hch, runTx, if_pos rfl]
      refine ⟨hone, fun _ => rfl, ?_⟩
      simp only [runTx, Bool.false_eq_true, if_false, updateTxOps, List.foldl_cons,
        List.foldl_nil]
      simp [processUpdateChange_two, hcur, hch]
    | false =>
      simp only [processUpdateChangeTx, hcur, if_pos hch, runTx, Bool.false_eq_true,
        if_false, updateTxOps, List.foldl_cons, List.foldl_nil]
      refine ⟨?_, fun hcon => absurd hcon (by decide), ?_⟩
      · rw [currentRowsFor_insertNewRecord_self, currentRowsFor_expireCurrent_self]
        rfl
      · simp [processUpdateChange_two, hcur, hch]
  · simp only [processUpdateChangeTx, hcur, if_neg hch]
    refine ⟨hone, fun hcon => absurd hcon (by decide), ?_⟩
    simp [processUpdateChange_two, hcur, hch]

/-- C3 witness: a genuine UPDATE against the one-row warehouse, at both
failure points. -/
theorem c3_witness :
    atMostOneCurrent demoS1 ∧
    getCurrentRecord demoUpd.id demoS1 = some demoCur ∧
    ∀ failInside : Bool,
      (currentRowsFor demoUpd.id (processUpdateChangeTx demoUpd [1] demoS1 failInside).1).length
        = 1 ∧
      ((processUpdateChangeTx demoUpd [1] demoS1 failInside).2 = false →
        (processUpdateChangeTx demoUpd [1] demoS1 failInside).1 = demoS1) ∧
      (processUpdateChangeTx demoUpd [1] demoS1 false).1 =
        (processUpdateChange 2 demoUpd [1] demoS1).getD demoS1 :=
  ⟨fun _ => List.length_filter_le _ _, by decide,
    c3_update_pair_atomic demoUpd [1] demoS1 demoCur
      (fun _ => List.length_filter_le _ _) (by decide)⟩

/-- C1: once a batch artifact has been applied and recorded under its
name and content identity, presenting the identical artifact to the
loader again returns the very same warehouse state (same rows, same
version count), the same ledger and success, and does not advance the
surrogate-key sequence. -/
theorem c1_ledger_idempotent (l0 l1 : Ledger) (fname : String) (changes : List Change)
    (s0 s1 : WState) (hne : changes ≠ [])
    (h1 : processBatchFile l0 fname changes s0 = ⟨s1, l1, true⟩) :
    processBatchFile l1 fname changes s1 = ⟨s1, l1, true⟩ ∧
    (processBatchFile l1 fname changes s1).state.nextKey = s1.nextKey := by
  have hemp : ¬ (changes.isEmpty = true) := by
    simpa [List.isEmpty_iff] using hne
  have hbid : alreadyProcessed l1 fname (batchIdOf changes) = true := by
    rw [processBatchFile, if_neg hemp] at h1
    by_cases hab : alreadyProcessed l0 fname (batchIdOf changes) = true
    · rw [if_pos hab] at h1
      obtain ⟨rfl, rfl, -⟩ := by
        simpa [BatchOutcome.mk.injEq] using h1
      exact hab
    · rw [if_neg hab] at h1
      cases hp : processBatchChanges changes (batchIdOf changes) s0 with
      | none =>
        rw [hp] at h1
        simp [BatchOutcome.mk.injEq] at h1
      | some s2 =>
        rw [hp] at h1
        obtain ⟨rfl, rfl, -⟩ := by
          simpa [BatchOutcome.mk.injEq] using h1
        simp [alreadyProcessed, markFileProcessed]
  have hmain : processBatchFile l1 fname changes s1 = ⟨s1, l1, true⟩ := by
    rw [processBatchFile, if_neg hemp, if_pos hbid]
  exact ⟨hmain, by rw [hmain]⟩

/-- C1 witness: the INSERT artifact applied once from the empty
warehouse, then presented a second time. -/
theorem c1_witness :
    [demoIns] ≠ ([] : List Change) ∧
    processBatchFile [] "changes_a.json" [demoIns] demoS0 =
      ⟨demoOut1.state, demoOut1.ledger, true⟩ ∧
    processBatchFile demoOut1.ledger "changes_a.json" [demoIns] demoOut1.state =
      ⟨demoOut1.state, demoOut1.ledger, true⟩ ∧
    (processBatchFile demoOut1.ledger "changes_a.json" [demoIns] demoOut1.state).state.nextKey
      = demoOut1.state.nextKey := by
  refine ⟨by decide, by decide, ?_⟩
  exact c1_ledger_idempotent [] demoOut1.ledger "changes_a.json" [demoIns] demoS0
    demoOut1.state (by decide) (by decide)

/-- C9: artifact selection skips every file whose NAME appears anywhere
in the ledger, regardless of the recorded content identity; for the
files that are selected, no ledger line shares their name, so the
(name, identity) pair check never matches for them; and removing every
file carrying an already-recorded name from the directory listing does
not change the run at all — a rewritten artifact under a recorded name
is never applied. -/
theorem c9_name_only_skip (ledger : Ledger) (files : List (String × List Change))
    (fname : String) (bid0 : List Nat) (hmem : (fname, bid0) ∈ ledger) :
    (∀ f ∈ unprocessedFiles ledger files, ∀ e ∈ ledger, e.1 ≠ f.1) ∧
    (∀ f ∈ unprocessedFiles ledger files,
      alreadyProcessed ledger f.1 (batchIdOf f.2) = false) ∧
    (∀ content, (fname, content) ∉ unprocessedFiles ledger files) ∧
    (∀ s, loadChangeLogs ledger files s =
      loadChangeLogs ledger (files.filter (fun f => !(f.1 == fname))) s) := by
  have habs : ∀ f ∈ unprocessedFiles ledger files, ∀ e ∈ ledger, e.1 ≠ f.1 := by
    intro f hf e he
    have hfil := List.mem_filter.mp hf
    have hnc : f.1 ∉ processedFilenames ledger := by
      simpa using hfil.2
    intro hcon
    exact hnc (hcon ▸ List.mem_map_of_mem (fun x => x.1) he)
  refine ⟨habs, ?_, ?_, ?_⟩
  · intro f hf
    rw [alreadyProcessed]
    rw [List.any_eq_false]
    intro e he
    have hne := habs f hf e he
    simp [hne]
  · intro content hcon
    exact habs (fname, content) hcon (fname, bid0) hmem rfl
  · have hsel : unprocessedFiles ledger (files.filter (fun f => !(f.1 == fname))) =
        unprocessedFiles ledger files := by
      rw [unprocessedFiles, unprocessedFiles, List.filter_filter]
      apply List.filter_congr
      intro f _
      by_cases hp : ((processedFilenames ledger).contains f.1) = true
      · have hmemf : f.1 ∈ processedFilenames ledger := by simpa using hp
        simp [hp, hmemf]
      · have hnm : f.1 ∉ processedFilenames ledger := by simpa using hp
        have hn : fname ∈ processedFilenames ledger :=
          List.mem_map_of_mem (fun x => x.1) hmem
        have hne : (f.1 == fname) = false := by
          simpa using fun hcon => hnm (by rw [hcon]; exact hn)
        simp [hp, hne, hnm]
    intro s
    rw [loadChangeLogs, loadChangeLogs, hsel]

/-- C9 witness: a ledger-recorded name with rewritten content next to a
fresh artifact. -/
theorem c9_witness :
    (("changes_a.json", ([1] : List Nat)) ∈
      ([("changes_a.json", [1])] : Ledger)) ∧
    ((∀ f ∈ unprocessedFiles [("changes_a.json", [1])]
        [("changes_a.json", [demoUpd]), ("changes_b.json", [demoIns])],
        ∀ e ∈ ([("changes_a.json", [1])] : Ledger), e.1 ≠ f.1) ∧
    (∀ f ∈ unprocessedFiles [("changes_a.json", [1])]
        [("changes_a.json", [demoUpd]), ("changes_b.json", [demoIns])],
      alreadyProcessed [("changes_a.json", [1])] f.1 (batchIdOf f.2) = false) ∧
    (∀ content, ("changes_a.json", content) ∉ unprocessedFiles [("changes_a.json", [1])]
        [("changes_a.json", [demoUpd]), ("changes_b.json", [demoIns])]) ∧
    (∀ s, loadChangeLogs [("changes_a.json", [1])]
        [("changes_a.json", [demoUpd]), ("changes_b.json", [demoIns])] s =
      loadChangeLogs [("changes_a.json", [1])]
        ([("changes_a.json", [demoUpd]), ("changes_b.json", [demoIns])].filter
          (fun f => !(f.1 == "changes_a.json"))) s)) :=
  ⟨by decide,
    c9_name_only_skip [("changes_a.json", [1])]
      [("changes_a.json", [demoUpd]), ("changes_b.json", [demoIns])]
      "changes_a.json" [1] (by decide)⟩

/-- C2 counterexample: an INSERT batch then a DELETE batch both apply
successfully, the key has one (applied) version row, yet zero rows are
current — "exactly one row has is_current = true" fails for key 1. -/
theorem c2_counterexample :
    demoOut1.ok = true ∧ demoOut2.ok = true ∧
    demoOut2.state.rows.length = 1 ∧
    (currentRowsFor 1 demoOut2.state).length = 0 ∧
    ¬ (currentRowsFor 1 demoOut2.state).length = 1 := by decide

/-- C2 (amended): after every successful batch application starting from
a state satisfying the single-current invariant, every natural key still
has at most one current row; and each key addressed by the batch ends
with exactly one current row when its effective change is an INSERT or
UPDATE, and with zero current rows when it is a DELETE. -/
theorem c2_at_most_one_current (changes : List Change) (bid : List Nat) (s s1 : WState)
    (hinv : atMostOneCurrent s) (h : processBatchChanges changes bid s = some s1) :
    atMostOneCurrent s1 ∧
    ∀ k ∈ orderKeys changes, ∃ c,
      latestChange (changesForKey changes k) = some c ∧ c.id = k ∧
      (currentRowsFor k s1).length = (if c.operation_type = "DELETE" then 0 else 1) := by
  obtain ⟨h1, -, h3⟩ := foldlM_keys_count changes bid (orderKeys changes) s s1
    (orderKeys_nodup changes) hinv h
  exact ⟨h1, h3⟩

/-- C2 witness: the coalescing batch applied to the empty warehouse. -/
theorem c2_witness :
    atMostOneCurrent demoS0 ∧
    processBatchChanges demoBatch (batchIdOf demoBatch) demoS0 = some demoSA ∧
    (atMostOneCurrent demoSA ∧
    ∀ k ∈ orderKeys demoBatch, ∃ c,
      latestChange (changesForKey demoBatch k) = some c ∧ c.id = k ∧
      (currentRowsFor k demoSA).length = (if c.operation_type = "DELETE" then 0 else 1)) :=
  ⟨fun _ => Nat.zero_le 1, by decide,
    c2_at_most_one_current demoBatch (batchIdOf demoBatch) demoS0 demoSA
      (fun _ => Nat.zero_le 1) (by decide)⟩

/-- C4: in every successfully applied batch, each key's partition
coalesces to the single effective change — a member of the partition
carrying its maximal capture timestamp, with every record after it in
detection order strictly older — and every row of the resulting table
either descends from a pre-batch row (at most closed) or is materialized
from an effective change, never from a discarded earlier record. -/
theorem c4_coalescing (changes : List Change) (bid : List Nat) (s s1 : WState)
    (h : processBatchChanges changes bid s = some s1) :
    effectiveSelection changes ∧ rowsProvenance changes bid s s1 := by
  constructor
  · intro k hk
    obtain ⟨c, hc⟩ := latestChange_isSome (changesForKey_ne_nil hk)
    obtain ⟨l₁, l₂, heq, hlt⟩ := latestChange_decomposition hc
    exact ⟨c, l₁, l₂, hc, latestChange_id hc, heq, (latestChange_mem_ge hc).2, hlt⟩
  · exact foldlM_keys_provenance changes bid (orderKeys changes) s s1 h

/-- C4 witness: the specification's three-record rapid-update batch. -/
theorem c4_witness :
    processBatchChanges demoBatch (batchIdOf demoBatch) demoS0 = some demoSA ∧
    (effectiveSelection demoBatch ∧
      rowsProvenance demoBatch (batchIdOf demoBatch) demoS0 demoSA) :=
  ⟨by decide,
    c4_coalescing demoBatch (batchIdOf demoBatch) demoS0 demoSA (by decide)⟩

/-- C6: for a source whose rows never have a creation time after their
last modification, the stored watermark never decreases across a poll;
a poll that detects changes sets it exactly to the maximum source
last-modified time of that batch (and strictly increases it), and a
poll detecting nothing leaves it unchanged. -/
theorem c6_watermark_monotonic (connOk : Bool) (orders : List SrcRow) (w now : Int)
    (hwf : ∀ r ∈ orders, r.created_at ≤ r.last_updated) :
    w ≤ extractBatch connOk orders w now ∧
    (detectChanges connOk orders w now = Except.ok [] →
      extractBatch connOk orders w now = w) ∧
    (∀ changes, detectChanges connOk orders w now = Except.ok changes → changes ≠ [] →
      w < extractBatch connOk orders w now ∧
      extractBatch connOk orders w now ∈ changes.map (fun c => c.row.last_updated) ∧
      ∀ c ∈ changes, c.row.last_updated ≤ extractBatch connOk orders w now) := by
  cases hdet : detectChanges connOk orders w now with
  | error e =>
    rw [detectChanges] at hdet
    split at hdet <;> cases hdet
  | ok changes =>
    have hext : extractBatch connOk orders w now = nextWatermark w changes := by
      rw [extractBatch, hdet]
    cases hch : changes with
    | nil =>
      subst hch
      have hw : nextWatermark w [] = w := rfl
      rw [hext, hw]
      refine ⟨le_refl w, fun _ => rfl, ?_⟩
      intro cl hcl hne
      obtain rfl : ([] : List DetChange) = cl := by
        injection hcl
      exact absurd rfl hne
    | cons c0 cs =>
      subst hch
      cases hm : maxInt ((c0 :: cs).map (fun c => c.row.last_updated)) with
      | none =>
        rw [maxInt_eq_none_iff] at hm
        cases hm
      | some m =>
        have hw : nextWatermark w (c0 :: cs) = m := by
          rw [nextWatermark, hm]
        obtain ⟨hmem, hub⟩ := maxInt_spec hm
        have hstrict : w < m := by
          obtain ⟨c, hc, rfl⟩ := List.mem_map.mp hmem
          exact (mem_detected hdet hc hwf).2
        rw [hext, hw]
        refine ⟨le_of_lt hstrict, ?_, ?_⟩
        · intro hcon
          injection hcon with hcon
          cases hcon
        · intro cl hcl hne
          obtain rfl : c0 :: cs = cl := by
            injection hcl
          refine ⟨hstrict, hmem, ?_⟩
          intro c hc
          exact hub c.row.last_updated (List.mem_map_of_mem (fun c => c.row.last_updated) hc)

/-- C6 witness: one modified source row, polled from watermark 0. -/
theorem c6_witness :
    (∀ r ∈ [demoSrcRow], r.created_at ≤ r.last_updated) ∧
    (0 ≤ extractBatch true [demoSrcRow] 0 7 ∧
    (detectChanges true [demoSrcRow] 0 7 = Except.ok [] →
      extractBatch true [demoSrcRow] 0 7 = 0) ∧
    (∀ changes, detectChanges true [demoSrcRow] 0 7 = Except.ok changes → changes ≠ [] →
      0 < extractBatch true [demoSrcRow] 0 7 ∧
      extractBatch true [demoSrcRow] 0 7 ∈ changes.map (fun c => c.row.last_updated) ∧
      ∀ c ∈ changes, c.row.last_updated ≤ extractBatch true [demoSrcRow] 0 7)) :=
  ⟨by decide, c6_watermark_monotonic true [demoSrcRow] 0 7 (by decide)⟩

/-- C7 counterexample: with the connection down and a nonempty source,
the detect call does NOT fail with a transient error — it returns
normally with the empty change list, exactly like an empty poll. -/
theorem c7_counterexample :
    detectChanges false [demoSrcRow] 0 7 = Except.ok [] ∧
    detectChanges false [demoSrcRow] 0 7 ≠ Except.error () ∧
    detectChanges false [demoSrcRow] 0 7 = detectChanges true [] 0 7 :=
  ⟨rfl, fun h => Except.noConfusion h, rfl⟩

/-- C7 (amended): when the source connection fails during change
detection, the error is caught and the call returns an empty change
list without raising; no output is produced and the watermark step
leaves the stored cursor unchanged, so it remains valid for retry. -/
theorem c7_detect_failure_empty (orders : List SrcRow) (since now w : Int) :
    detectChanges false orders since now = Except.ok [] ∧
    extractBatch false orders w now = w :=
  ⟨rfl, rfl⟩

/-- C8 counterexample: `_save_watermark` truncates the watermark file in
place and then writes; between the two steps a reader of the watermark
path sees an empty file — neither the old nor the new value — so the
write-new-then-replace atomicity claim fails. -/
theorem c8_counterexample :
    ¬ atomicallyReplaces (saveWatermarkOps "2026-02-02T00:00:00") watermarkPath
      "2026-02-01T00:00:00" "2026-02-02T00:00:00" :=
  fun h => absurd (h 1) (by decide)

/-- C8 (amended): `_save_watermark` persists the watermark by opening
the watermark path in truncating write mode and writing the new value in
place — no separate artifact and no replace step; the final content is
the new value, but the intermediate state visible after the truncating
open is the empty file. -/
theorem c8_save_watermark_in_place (ts : String) (fs : FileSys) :
    saveWatermarkOps ts =
      [FileOp.openTrunc watermarkPath, FileOp.writeContent watermarkPath ts] ∧
    applyOps fs (saveWatermarkOps ts) watermarkPath = some ts ∧
    applyOps fs ((saveWatermarkOps ts).take 1) watermarkPath = some "" ∧
    ∀ op ∈ saveWatermarkOps ts, ∀ a b, op ≠ FileOp.renameTo a b := by
  refine ⟨rfl, ?_, ?_, ?_⟩
  · simp [applyOps, applyOp, saveWatermarkOps]
  · simp [applyOps, applyOp, saveWatermarkOps]
  · intro op hop a b
    have hcases : op = FileOp.openTrunc watermarkPath ∨
        op = FileOp.writeContent watermarkPath ts := by
      simpa [saveWatermarkOps] using hop
    rcases hcases with rfl | rfl <;> intro hcon <;> cases hcon

end CdcWarehouse
